import Mathlib

/-!
Verification of the word-frequency analysis engine of the learner-platform
repository.

The engine's source lives in `src/utils/textAnalyzer.ts` (tokenizer),
`src/utils/stemmer.ts` (Porter-style stemmer, bundled in the repository's
`featureGates.ts` compilation unit), `src/services/wordFrequencyService.ts`
(aggregation, search, caching) and `src/workers/frequencyAnalyzer.worker.ts`
(the background-worker aggregation path).

Strings are embedded as `List Char` (`Str`).  JavaScript string primitives
(`toLowerCase`, `trim`, `split`, `replace` with the concrete regexes used by
the source, `RegExp.test` including the `lastIndex` statefulness of global
regexes) are given explicit executable definitions over `Str`.  The character
model is ASCII: `toLowerCase` and the case-insensitive `i` regex flag are
modelled on the ASCII letters, which covers every token the tokenizers can
produce (their word-shape rule admits only ASCII letters and apostrophes).
-/

set_option maxRecDepth 10000

deriving instance DecidableEq for Except

namespace WF

/-- Strings of the embedded programs: JavaScript strings as lists of
characters. -/
abbrev Str := List Char

/-- ASCII lowercase conversion of one character, the effect of JavaScript
`String.prototype.toLowerCase` on the ASCII range: letters `A`–`Z` (codes
65–90) are shifted by 32, everything else is kept. -/
def toLowerA (c : Char) : Char :=
  if 65 ≤ c.toNat ∧ c.toNat ≤ 90 then Char.ofNat (c.toNat + 32) else c

/-- Test for an ASCII uppercase letter (codes 65–90). -/
def isUpperA (c : Char) : Bool :=
  decide (65 ≤ c.toNat ∧ c.toNat ≤ 90)

/-- Whether a string contains an ASCII uppercase letter. -/
def hasUpperA (l : Str) : Bool :=
  l.any isUpperA

/-- JavaScript `toLowerCase` on a string (ASCII model). -/
def listToLower (l : Str) : Str :=
  l.map toLowerA

/-- Case-insensitive character comparison, the `i` regex flag (ASCII model). -/
def ciEq (a b : Char) : Bool :=
  toLowerA a = toLowerA b

/-- Whitespace characters for the `\s` regex class (ASCII model: space, tab,
newline, carriage return, form feed, vertical tab). -/
def isWs (c : Char) : Bool :=
  c = ' ' || c = '\t' || c = '\n' || c = '\r' || c = '\x0b' || c = '\x0c'

/-- ASCII letter test, the `[a-zA-Z]` regex class. -/
def isAlphaA (c : Char) : Bool :=
  decide ((65 ≤ c.toNat ∧ c.toNat ≤ 90) ∨ (97 ≤ c.toNat ∧ c.toNat ≤ 122))

/-- ASCII digit test. -/
def isDigitA (c : Char) : Bool :=
  decide (48 ≤ c.toNat ∧ c.toNat ≤ 57)

/-- Word characters for the `\w` regex class: letters, digits, underscore. -/
def isWordChar (c : Char) : Bool :=
  isAlphaA c || isDigitA c || c = '_'

/-- Sentence delimiters of the `[.!?]` class used by both sentence splitters
and by `extractContexts`. -/
def isSentDelim (c : Char) : Bool :=
  c = '.' || c = '!' || c = '?'

/-- JavaScript `String.prototype.trim` (ASCII whitespace model): drop leading
and trailing whitespace. -/
def trimL (l : Str) : Str :=
  ((l.dropWhile isWs).reverse.dropWhile isWs).reverse

/-- JavaScript `str.split(re)` for a regex that is a character class with `+`
(one or more delimiter characters): splits on maximal runs of characters
satisfying `p`, keeping empty boundary segments exactly as JavaScript does
(`"a..b".split(/[.!?]+/) = ["a","b"]`, `"abc.".split(...) = ["abc",""]`). -/
def splitRuns (p : Char → Bool) : Str → List Str
  | [] => [[]]
  | c :: rest =>
    if p c then
      match rest with
      | d :: _ =>
        if p d then splitRuns p rest else [] :: splitRuns p rest
      | [] => [] :: splitRuns p rest
    else
      match splitRuns p rest with
      | h :: t => (c :: h) :: t
      | [] => [[c]]

/-- JavaScript `str.split(sep)` for a one-character separator string: splits
at every occurrence of `sep` (no run merging). -/
def splitChar (sep : Char) : Str → List Str
  | [] => [[]]
  | c :: rest =>
    if c = sep then [] :: splitChar sep rest
    else
      match splitChar sep rest with
      | h :: t => (c :: h) :: t
      | [] => [[c]]

/-- First-match association-list lookup, the behaviour of both
`Map.prototype.get` and property lookup on a literal object whose keys are
unique. -/
def lookupA (k : Str) : List (Str × Str) → Option Str
  | [] => none
  | (k', v) :: rest => if k' = k then some v else lookupA k rest

/-- Association-list lookup with a list-of-strings payload, used for the
service-level caches (`Map<string, ...>`). -/
def lookupS (k : Str) : List (Str × List Str) → Option (List Str)
  | [] => none
  | (k', v) :: rest => if k' = k then some v else lookupS k rest

/-- Boolean suffix test, `pattern.test(word)` for a suffix-anchored literal
regex such as `/sses$/`. -/
def endsWithS (suf l : Str) : Bool :=
  decide (suf.length ≤ l.length) && decide (l.drop (l.length - suf.length) = suf)

/-- Last character test, the `/x$/` regex. -/
def endsChar (c : Char) (l : Str) : Bool :=
  endsWithS [c] l

/-- JavaScript `word.replace(/suf$/, rep)` under the assumption that the
suffix occurs (callers guard with `endsWithS`). -/
def replaceSuffix (suf rep l : Str) : Str :=
  l.take (l.length - suf.length) ++ rep

/-- Boolean prefix test used by the substring search. -/
def startsWithB : Str → Str → Bool
  | [], _ => true
  | _ :: _, [] => false
  | a :: as, b :: bs => a = b && startsWithB as bs

/-- JavaScript `hay.includes(needle)`: substring containment. -/
def containsSubB (needle : Str) : Str → Bool
  | [] => needle.isEmpty
  | c :: rest => startsWithB needle (c :: rest) || containsSubB needle rest

/-- Stable descending sort by a numeric key: ordered insertion placing each
element before strictly-smaller keys and after greater-or-equal keys, which
is exactly the result of JavaScript's stable
`array.sort((a, b) => key(b) - key(a))`. -/
def insertDescBy {α : Type} (key : α → Nat) (e : α) : List α → List α
  | [] => [e]
  | x :: xs => if key x > key e then x :: insertDescBy key e xs else e :: x :: xs

/-- Stable descending sort (insertion sort over `insertDescBy`). -/
def stableSortDescBy {α : Type} (key : α → Nat) (l : List α) : List α :=
  l.foldr (insertDescBy key) []

/-! ### Tokenizer (`src/utils/textAnalyzer.ts`) -/

/-- Stopword list of `textAnalyzer.ts` (`STOP_WORDS`), transcribed in source
order; the source wraps it in a `Set`, so the duplicate `'her'` is harmless
and membership is list membership. -/
def STOP_WORDS_MAIN : List Str :=
  [ "a".data, "an".data, "the".data,
    "in".data, "on".data, "at".data, "by".data, "for".data, "with".data,
    "without".data, "to".data, "from".data, "of".data, "about".data,
    "under".data, "over".data, "through".data, "between".data, "among".data,
    "during".data, "before".data, "after".data,
    "above".data, "below".data, "up".data, "down".data, "into".data,
    "onto".data, "upon".data, "within".data, "against".data,
    "and".data, "or".data, "but".data, "nor".data, "so".data, "yet".data,
    "because".data, "although".data, "while".data,
    "since".data, "unless".data, "until".data, "if".data, "when".data,
    "where".data, "why".data, "how".data,
    "i".data, "you".data, "he".data, "she".data, "it".data, "we".data,
    "they".data, "me".data, "him".data, "her".data, "us".data, "them".data,
    "my".data, "your".data, "his".data, "her".data, "its".data, "our".data,
    "their".data, "mine".data, "yours".data, "ours".data,
    "this".data, "that".data, "these".data, "those".data, "who".data,
    "whom".data, "whose".data, "which".data, "what".data,
    "am".data, "is".data, "are".data, "was".data, "were".data, "be".data,
    "been".data, "being".data,
    "have".data, "has".data, "had".data, "do".data, "does".data, "did".data,
    "will".data, "would".data,
    "shall".data, "should".data, "may".data, "might".data, "can".data,
    "could".data, "must".data,
    "not".data, "no".data, "yes".data, "very".data, "too".data, "so".data,
    "just".data, "only".data, "also".data,
    "here".data, "there".data, "now".data, "then".data, "today".data,
    "tomorrow".data, "yesterday".data,
    "always".data, "never".data, "sometimes".data, "often".data,
    "usually".data, "again".data,
    "one".data, "two".data, "three".data, "four".data, "five".data,
    "six".data, "seven".data, "eight".data, "nine".data, "ten".data,
    "first".data, "second".data, "third".data, "last".data, "next".data,
    "another".data, "other".data, "some".data, "many".data,
    "few".data, "more".data, "most".data, "less".data, "all".data,
    "any".data, "each".data, "every".data, "both".data, "either".data ]

/-- Characters removed by the `PUNCTUATION` regex `/[^\w\s']|_/`: a character
matches when it is not a word character, not whitespace and not an
apostrophe, or when it is an underscore. -/
def isPunct (c : Char) : Bool :=
  (!(isWordChar c || isWs c || c = '\'')) || c = '_'

/-- JavaScript `text.replace(/\r\n/g, '\n')`: left-to-right non-overlapping
replacement of CRLF pairs. -/
def normalizeCrlf : Str → Str
  | '\r' :: '\n' :: rest => '\n' :: normalizeCrlf rest
  | c :: rest => c :: normalizeCrlf rest
  | [] => []

/-- JavaScript `text.replace(/\s+/g, ' ')`: each maximal whitespace run
collapses to a single space. -/
def collapseWs : Str → Str
  | [] => []
  | [c] => [if isWs c then ' ' else c]
  | c₁ :: c₂ :: rest =>
    if isWs c₁ && isWs c₂ then collapseWs (c₂ :: rest)
    else (if isWs c₁ then ' ' else c₁) :: collapseWs (c₂ :: rest)

/-- `TextAnalyzer.cleanText`: normalize line endings, replace tabs with
spaces, remove punctuation (kept: apostrophes), collapse whitespace, trim.
No lowercasing happens here (unlike the worker's `cleanText`). -/
def cleanTextMain (text : Str) : Str :=
  trimL (collapseWs ((((normalizeCrlf text).map fun c => if c = '\t' then ' ' else c).map
    fun c => if isPunct c then ' ' else c)))

/-- `TextAnalyzer.cleanWord`: strip one leading and one trailing quote
character (`/^['"]|['"]$/g`), strip one trailing sentence punctuation
character (`/[.,;:!?]$/g`), then trim. -/
def cleanWordFn (w : Str) : Str :=
  let isQuote : Char → Bool := fun c => c = '\'' || c = '"'
  let w1 := match w with
    | [] => []
    | c :: rest => if isQuote c then rest else c :: rest
  let w2 := match w1.reverse with
    | [] => []
    | c :: rest => if isQuote c then rest.reverse else w1
  let w3 := match w2.reverse with
    | [] => []
    | c :: rest =>
      if c = '.' || c = ',' || c = ';' || c = ':' || c = '!' || c = '?'
      then rest.reverse else w2
  trimL w3

/-- The `VALID_WORD` regex `/^[a-zA-Z][a-zA-Z']*[a-zA-Z]$|^[a-zA-Z]$/`:
either a single letter, or a letter-delimited word whose interior characters
are letters or apostrophes. -/
def validWordB (w : Str) : Bool :=
  match w with
  | [] => false
  | [c] => isAlphaA c
  | c :: rest =>
    match rest.reverse with
    | [] => false
    | lastC :: midRev =>
      isAlphaA c && isAlphaA lastC &&
        midRev.all (fun m => isAlphaA m || m = '\'')

/-- The `HYPHENATED` regex `/^[a-zA-Z]+-[a-zA-Z]+$/`. -/
def isHyphensB (w : Str) : Bool :=
  let p := w.takeWhile isAlphaA
  match w.drop p.length with
  | '-' :: q => (!p.isEmpty) && (!q.isEmpty) && q.all isAlphaA
  | _ => false

/-- The `CONTRACTION` regex `/^(n't|'re|'ve|'ll|'d|'s|'m)$/i`: the word is
case-insensitively one of the bare contraction fragments. -/
def isContractionFragB (w : Str) : Bool :=
  let lw := listToLower w
  lw = ['n', '\'', 't'] || lw = ['\'', 'r', 'e'] || lw = ['\'', 'v', 'e'] ||
    lw = ['\'', 'l', 'l'] || lw = ['\'', 'd'] || lw = ['\'', 's'] || lw = ['\'', 'm']

/-- `TextAnalyzer.isValidWord`. -/
def isValidWordB (w : Str) (minLength : Nat) (includeStopWords : Bool) : Bool :=
  if w.length < minLength then false
  else if isContractionFragB w then false
  else if !(validWordB w || isHyphensB w) then false
  else if !includeStopWords && STOP_WORDS_MAIN.contains (listToLower w) then false
  else true

/-- `TextAnalyzer.splitIntoSentences`: split on runs of `.` `!` `?`, trim,
drop empties. -/
def splitIntoSentencesM (text : Str) : List Str :=
  ((splitRuns isSentDelim text).map trimL).filter (fun st => !st.isEmpty)

/-- The cache-free core of `TextAnalyzer.extractWords` (the
`includePositions = false` variant returning plain tokens): clean the text,
split into sentences, split each sentence on whitespace, clean and validate
each candidate, and lowercase the survivors. -/
def extractWordsPure (text : Str) (includeStopWords : Bool) (minLength : Nat) : List Str :=
  let clean := cleanTextMain text
  let sentences := splitIntoSentencesM clean
  (sentences.map fun sentence =>
    ((splitRuns isWs sentence).filter (fun w => !w.isEmpty)).filterMap fun w =>
      let cw := cleanWordFn w
      if isValidWordB cw minLength includeStopWords then some (listToLower cw)
      else none).flatten

/-- `TextAnalyzer.extractWords` with its default options
(`includeStopWords = false`, `minLength = 1`), as called by the service's
synchronous aggregation path. -/
def extractWordsMain (text : Str) : List Str :=
  extractWordsPure text false 1

/-- Decimal rendering of a number, as interpolated by the template literal
of the cache key. -/
def natStr (n : Nat) : Str :=
  Nat.toDigits 10 n

/-- Rendering of a boolean in a template literal. -/
def boolStr (b : Bool) : Str :=
  if b then "true".data else "false".data

/-- The cache key of `TextAnalyzer.extractWords`:
`words_${text.slice(0, 100)}_${includeStopWords}_${minLength}_${includePositions}`
with `includePositions = false` (the plain-token variant modelled here).
Only the first 100 characters of the text enter the key. -/
def cacheKeyM (text : Str) (includeStopWords : Bool) (minLength : Nat) : Str :=
  "words_".data ++ (text.take 100 ++ ("_".data ++ (boolStr includeStopWords ++
    ("_".data ++ (natStr minLength ++ "_false".data)))))

/-- The memo table of the `TextAnalyzer` singleton (`this.cache`), in
insertion order. -/
abbrev TACache := List (Str × List Str)

/-- `TextAnalyzer.extractWords` as implemented: consult the cache under
`cacheKeyM`; on a miss run the cache-free extraction and store the result. -/
def extractWordsCached (cache : TACache) (text : Str) (includeStopWords : Bool)
    (minLength : Nat) : List Str × TACache :=
  let k := cacheKeyM text includeStopWords minLength
  match lookupS k cache with
  | some v => (v, cache)
  | none =>
    let r := extractWordsPure text includeStopWords minLength
    (r, cache ++ [(k, r)])

/-! ### Stemmer (`src/utils/stemmer.ts`) -/

/-- Vowel test of the `VOWEL` regex `[aeiou]`. -/
def isVowel (c : Char) : Bool :=
  c = 'a' || c = 'e' || c = 'i' || c = 'o' || c = 'u'

/-- Consonant test of the `CONSONANT` regex `[bcdfghjklmnpqrstvwxyz]`. -/
def isConsonantL (c : Char) : Bool :=
  c = 'b' || c = 'c' || c = 'd' || c = 'f' || c = 'g' || c = 'h' || c = 'j' ||
  c = 'k' || c = 'l' || c = 'm' || c = 'n' || c = 'p' || c = 'q' || c = 'r' ||
  c = 's' || c = 't' || c = 'v' || c = 'w' || c = 'x' || c = 'y' || c = 'z'

/-- Count of non-overlapping matches of `/[aeiou][bcdfghjklmnpqrstvwxyz]/g`,
scanning left to right: on a vowel-consonant pair advance past both,
otherwise advance one character. -/
def vcCount : Str → Nat
  | c₁ :: c₂ :: rest =>
    if isVowel c₁ && isConsonantL c₂ then 1 + vcCount rest
    else vcCount (c₂ :: rest)
  | _ => 0

/-- `measure`: strip the leading consonant run
(`replace(/^[bcdfghjklmnpqrstvwxyz]+/, '')`), then count VC patterns. -/
def measureW (w : Str) : Nat :=
  vcCount (w.dropWhile isConsonantL)

/-- `hasVowel`: the `VOWEL` regex tests anywhere in the word. -/
def hasVowelB (w : Str) : Bool :=
  w.any isVowel

/-- `endsWithDoubleConsonant`: last two characters equal and consonant. -/
def endsDoubleConsonant (w : Str) : Bool :=
  match w.reverse with
  | a :: b :: _ => a = b && isConsonantL a
  | _ => false

/-- `cvc`: the last three characters form consonant-vowel-consonant with the
final consonant not `w`, `x` or `y`. -/
def cvcB (w : Str) : Bool :=
  match w.reverse with
  | lastC :: mid :: third :: _ =>
    isConsonantL third && isVowel mid && isConsonantL lastC &&
      !(lastC = 'w' || lastC = 'x' || lastC = 'y')
  | _ => false

/-- Conditions attached to stemmer rules (`rule.condition`).  The source's
`applyRules` also recognises a `'m > 1'` condition; no rule table uses it,
but it is kept for faithfulness. -/
inductive SCond where
  | mGt0
  | mGt1
  | hasVowelC
  | sOrT
deriving DecidableEq

/-- One suffix-rewrite rule `{pattern, replacement, condition?}`. -/
structure SRule where
  pat : Str
  rep : Str
  cond : Option SCond
deriving DecidableEq

/-- Evaluation of a rule's condition on the word with the suffix removed
(`const m = measure(word.replace(rule.pattern, ''))` and the `switch`). -/
def ruleOk (r : SRule) (dropped : Str) : Bool :=
  match r.cond with
  | none => true
  | some .mGt0 => decide (measureW dropped > 0)
  | some .mGt1 => decide (measureW dropped > 1)
  | some .hasVowelC => hasVowelB dropped
  | some .sOrT =>
    decide (measureW dropped > 1) &&
      (endsChar 's' dropped || endsChar 't' dropped)

/-- `applyRules`: try the rules in order; on the first rule whose pattern
matches and whose condition (evaluated on the word with the suffix removed)
holds, apply the replacement and stop.  A rule whose pattern matches but
whose condition fails does not stop the scan. -/
def applyRules (w : Str) : List SRule → Str
  | [] => w
  | r :: rs =>
    if endsWithS r.pat w then
      if ruleOk r (replaceSuffix r.pat [] w) then replaceSuffix r.pat r.rep w
      else applyRules w rs
    else applyRules w rs

/-- `step1aRules`. -/
def step1aRules : List SRule :=
  [ ⟨"sses".data, "ss".data, none⟩,
    ⟨"ies".data, "i".data, none⟩,
    ⟨"ss".data, "ss".data, none⟩,
    ⟨"s".data, [], none⟩ ]

/-- `step1bRules`. -/
def step1bRules : List SRule :=
  [ ⟨"eed".data, "ee".data, some .mGt0⟩,
    ⟨"ed".data, [], some .hasVowelC⟩,
    ⟨"ing".data, [], some .hasVowelC⟩ ]

/-- `step1bPost`. -/
def step1bPost : List SRule :=
  [ ⟨"at".data, "ate".data, none⟩,
    ⟨"bl".data, "ble".data, none⟩,
    ⟨"iz".data, "ize".data, none⟩ ]

/-- `step2Rules`. -/
def step2Rules : List SRule :=
  [ ⟨"ational".data, "ate".data, none⟩,
    ⟨"tional".data, "tion".data, none⟩,
    ⟨"enci".data, "ence".data, none⟩,
    ⟨"anci".data, "ance".data, none⟩,
    ⟨"izer".data, "ize".data, none⟩,
    ⟨"abli".data, "able".data, none⟩,
    ⟨"alli".data, "al".data, none⟩,
    ⟨"entli".data, "ent".data, none⟩,
    ⟨"eli".data, "e".data, none⟩,
    ⟨"ousli".data, "ous".data, none⟩,
    ⟨"ization".data, "ize".data, none⟩,
    ⟨"ation".data, "ate".data, none⟩,
    ⟨"ator".data, "ate".data, none⟩,
    ⟨"alism".data, "al".data, none⟩,
    ⟨"iveness".data, "ive".data, none⟩,
    ⟨"fulness".data, "ful".data, none⟩,
    ⟨"ousness".data, "ous".data, none⟩,
    ⟨"aliti".data, "al".data, none⟩,
    ⟨"iviti".data, "ive".data, none⟩,
    ⟨"biliti".data, "ble".data, none⟩ ]

/-- `step3Rules`. -/
def step3Rules : List SRule :=
  [ ⟨"icate".data, "ic".data, none⟩,
    ⟨"ative".data, [], none⟩,
    ⟨"alize".data, "al".data, none⟩,
    ⟨"iciti".data, "ic".data, none⟩,
    ⟨"ical".data, "ic".data, none⟩,
    ⟨"ful".data, [], none⟩,
    ⟨"ness".data, [], none⟩ ]

/-- `step4Rules`. -/
def step4Rules : List SRule :=
  [ ⟨"al".data, [], none⟩,
    ⟨"ance".data, [], none⟩,
    ⟨"ence".data, [], none⟩,
    ⟨"er".data, [], none⟩,
    ⟨"ic".data, [], none⟩,
    ⟨"able".data, [], none⟩,
    ⟨"ible".data, [], none⟩,
    ⟨"ant".data, [], none⟩,
    ⟨"ement".data, [], none⟩,
    ⟨"ment".data, [], none⟩,
    ⟨"ent".data, [], none⟩,
    ⟨"ion".data, [], some .sOrT⟩,
    ⟨"ou".data, [], none⟩,
    ⟨"ism".data, [], none⟩,
    ⟨"ate".data, [], none⟩,
    ⟨"iti".data, [], none⟩,
    ⟨"ous".data, [], none⟩,
    ⟨"ive".data, [], none⟩,
    ⟨"ize".data, [], none⟩ ]

/-- JavaScript `stemmed.slice(0, -1)`. -/
def dropLast1 (w : Str) : Str :=
  w.take (w.length - 1)

/-- Post-fixups after step 1b (`if (stemmed !== beforeStep1b && ...)`). -/
def step1bFix (prev cur : Str) : Str :=
  if cur ≠ prev ∧ cur.length > 1 then
    if endsWithS "at".data cur || endsWithS "bl".data cur || endsWithS "iz".data cur then
      applyRules cur step1bPost
    else if endsDoubleConsonant cur &&
        !(endsChar 'l' cur || endsChar 's' cur || endsChar 'z' cur) then
      dropLast1 cur
    else if measureW cur = 1 ∧ cvcB cur then cur ++ ['e']
    else cur
  else cur

/-- Step 5, first part: drop a trailing `e` when `m > 1`, or when `m = 1`
and the stem is not CVC-shaped. -/
def step5a (w : Str) : Str :=
  if measureW w > 1 then
    if endsChar 'e' w then dropLast1 w else w
  else if measureW w = 1 ∧ ¬(cvcB w = true) ∧ endsChar 'e' w then dropLast1 w
  else w

/-- Step 5, second part: collapse a trailing doubled `l` when `m > 1`. -/
def step5b (w : Str) : Str :=
  if measureW w > 1 ∧ endsDoubleConsonant w ∧ endsChar 'l' w then dropLast1 w
  else w

/-- Step 1b together with its post-fixups, remembering the word as it was
before step 1b (`beforeStep1b` in the source). -/
def stem1b (s1 : Str) : Str :=
  step1bFix s1 (applyRules s1 step1bRules)

/-- A rule table applied only when `measure(stemmed) > 0` (steps 2 and 3). -/
def applyIfM0 (rules : List SRule) (w : Str) : Str :=
  if measureW w > 0 then applyRules w rules else w

/-- A rule table applied only when `measure(stemmed) > 1` (step 4). -/
def applyIfM1 (rules : List SRule) (w : Str) : Str :=
  if measureW w > 1 then applyRules w rules else w

/-- `stemWord` of `stemmer.ts`: words of length at most 2 are returned
verbatim (before any lowercasing); longer words are lowercased and pushed
through steps 1a, 1b (with post-fixups), 2, 3 (gated by `m > 0`), 4 (gated
by `m > 1`) and 5. -/
def stemWord (word : Str) : Str :=
  if word.length ≤ 2 then word
  else
    step5b (step5a (applyIfM1 step4Rules (applyIfM0 step3Rules
      (applyIfM0 step2Rules (stem1b (applyRules (listToLower word) step1aRules))))))

/-- The `IRREGULAR_VERBS` table, transcribed in source order (keys are
distinct). -/
def IRREGULAR_VERBS : List (Str × Str) :=
  [ ("was".data, "be".data), ("were".data, "be".data), ("been".data, "be".data),
    ("am".data, "be".data), ("is".data, "be".data), ("are".data, "be".data),
    ("had".data, "have".data), ("has".data, "have".data),
    ("did".data, "do".data), ("does".data, "do".data), ("done".data, "do".data),
    ("went".data, "go".data), ("gone".data, "go".data),
    ("came".data, "come".data), ("saw".data, "see".data),
    ("seen".data, "see".data), ("took".data, "take".data),
    ("taken".data, "take".data), ("gave".data, "give".data),
    ("given".data, "give".data), ("got".data, "get".data),
    ("gotten".data, "get".data), ("made".data, "make".data),
    ("said".data, "say".data), ("told".data, "tell".data),
    ("thought".data, "think".data), ("brought".data, "bring".data),
    ("bought".data, "buy".data), ("caught".data, "catch".data),
    ("taught".data, "teach".data), ("found".data, "find".data),
    ("left".data, "leave".data), ("felt".data, "feel".data),
    ("kept".data, "keep".data), ("slept".data, "sleep".data),
    ("met".data, "meet".data), ("sent".data, "send".data),
    ("spent".data, "spend".data), ("built".data, "build".data),
    ("heard".data, "hear".data), ("held".data, "hold".data),
    ("lost".data, "lose".data), ("meant".data, "mean".data),
    ("paid".data, "pay".data), ("put".data, "put".data),
    ("read".data, "read".data), ("ran".data, "run".data),
    ("sold".data, "sell".data), ("set".data, "set".data),
    ("shut".data, "shut".data), ("spoke".data, "speak".data),
    ("spoken".data, "speak".data), ("stood".data, "stand".data),
    ("stuck".data, "stick".data), ("swam".data, "swim".data),
    ("swum".data, "swim".data), ("threw".data, "throw".data),
    ("thrown".data, "throw".data), ("understood".data, "understand".data),
    ("woke".data, "wake".data), ("woken".data, "wake".data),
    ("wore".data, "wear".data), ("worn".data, "wear".data),
    ("won".data, "win".data), ("wrote".data, "write".data),
    ("written".data, "write".data) ]

/-- `enhancedStem`: consult the irregular-verb table on the lowercased word
first (all table values are non-empty strings, hence truthy); fall back to
`stemWord` on the original word. -/
def enhancedStem (word : Str) : Str :=
  let lowerWord := listToLower word
  match lookupA lowerWord IRREGULAR_VERBS with
  | some base => base
  | none => stemWord word

/-! ### Aggregation: synchronous path (`WordFrequencyService.processArticles`)
and worker path (`frequencyAnalyzer.worker.ts`) -/

/-- An input document; the source's articles carry further presentation
fields (`category`, `difficulty`, `tags`, `wordCount`) that the engine never
reads. -/
structure Doc where
  id : Str
  title : Str
  content : Str
deriving DecidableEq

/-- The aggregated record (`WordEntry`): raw occurrence count, deduplicated
source-article ids in first-seen order, stem computed at insertion. -/
structure WordEntry where
  word : Str
  frequency : Nat
  articles : List Str
  stemmed : Str
deriving DecidableEq

/-- One token update of the service's `wordFrequency` map (a `Map` in
insertion order, modelled as a keyed list): increment the existing entry and
add the article id if absent, or append a fresh entry with frequency 1. -/
def updateEntry (aid : Str) (w : Str) : List WordEntry → List WordEntry
  | [] => [⟨w, 1, [aid], stemWord w⟩]
  | e :: rest =>
    if e.word = w then
      { e with
        frequency := e.frequency + 1,
        articles := if e.articles.contains aid then e.articles
                    else e.articles ++ [aid] } :: rest
    else e :: updateEntry aid w rest

/-- The cache-free core of `WordFrequencyService.processArticles` (the
synchronous in-process path): tokenize each article with the tokenizer's
pure extraction, lowercase each token, fold it into the map, then sort
descending by frequency (stable).  The implemented method tokenizes through
the memoizing `textAnalyzer.extractWords` singleton; `processArticlesSt`
below threads that memo table explicitly, and the two agree on every corpus
whose documents are shorter than the 100-character key truncation
(`processArticlesSt_pure`). -/
def processArticles (articles : List Doc) : List WordEntry :=
  stableSortDescBy (fun e => e.frequency)
    (articles.foldl
      (fun m a =>
        (extractWordsMain a.content).foldl
          (fun m w => updateEntry a.id (listToLower w) m) m)
      [])

/-- One article of the implemented `processArticles` loop: tokenize the
article through the memoizing `extractWords` (default options) on the
current state of the `TextAnalyzer` cache, fold the returned tokens into
the map, and carry the updated cache. -/
def processArticlesStep (acc : List WordEntry × TACache) (a : Doc) :
    List WordEntry × TACache :=
  ((extractWordsCached acc.2 a.content false 1).1.foldl
      (fun m w => updateEntry a.id (listToLower w) m) acc.1,
    (extractWordsCached acc.2 a.content false 1).2)

/-- `WordFrequencyService.processArticles` as implemented, with the
`TextAnalyzer` singleton's memo table threaded through the per-article
`extractWords` calls (their cache key keeps only the first 100 characters
of the text): fold every article's possibly cache-served tokens into the
map, sort descending by frequency (stable), and return the entry list
together with the tokenizer cache left behind. -/
def processArticlesSt (cache : TACache) (articles : List Doc) :
    List WordEntry × TACache :=
  (stableSortDescBy (fun e => e.frequency)
      (articles.foldl processArticlesStep ([], cache)).1,
    (articles.foldl processArticlesStep ([], cache)).2)

/-- Stopword list shared verbatim by `wordFrequencyService.ts` (`stopWords`)
and `frequencyAnalyzer.worker.ts` (`STOP_WORDS`), transcribed in source
order. -/
def stopWordsCommon : List Str :=
  [ "the".data, "a".data, "an".data, "and".data, "or".data, "but".data,
    "in".data, "on".data, "at".data, "to".data, "for".data, "of".data,
    "with".data, "by".data,
    "is".data, "are".data, "was".data, "were".data, "be".data, "been".data,
    "being".data, "have".data, "has".data, "had".data, "do".data,
    "does".data, "did".data,
    "will".data, "would".data, "could".data, "should".data, "may".data,
    "might".data, "can".data, "shall".data, "must".data,
    "i".data, "you".data, "he".data, "she".data, "it".data, "we".data,
    "they".data, "me".data, "him".data, "her".data, "us".data, "them".data,
    "my".data, "your".data, "his".data, "her".data, "its".data, "our".data,
    "their".data, "this".data, "that".data, "these".data, "those".data ]

/-- `WorkerTextProcessor.cleanText`: lowercase first, then remove
punctuation, collapse whitespace and trim. -/
def cleanTextW (text : Str) : Str :=
  trimL (collapseWs ((listToLower text).map fun c => if isPunct c then ' ' else c))

/-- `WorkerTextProcessor.extractWords`: split the cleaned text on single
spaces, trim each candidate, and keep words of length at least 2 matching
the word-shape rule that are not worker stopwords. -/
def extractWordsW (text : Str) : List Str :=
  (((splitChar ' ' (cleanTextW text)).map trimL).filter
    fun w => decide (w.length ≥ 2) && validWordB w && !stopWordsCommon.contains w)

/-- `WorkerTextProcessor.processArticle`: article id together with its
extracted words (the `wordCount` statistic is not consumed downstream). -/
def processArticleW (a : Doc) : Str × List Str :=
  (a.id, extractWordsW a.content)

/-- `BatchProcessor.processBatches` restricted to its data flow: process the
items in batches of 10 and concatenate the results in order (progress
events and timer yields carry no data). -/
def processBatchesW (articles : List Doc) : List (Str × List Str) :=
  if h : articles = [] then []
  else (articles.take 10).map processArticleW ++ processBatchesW (articles.drop 10)
termination_by articles.length
decreasing_by
  simp only [List.length_drop]
  have : articles.length ≠ 0 := fun hz => h (List.eq_nil_of_length_eq_zero hz)
  omega

/-- One token update of the worker's `wordFrequency` map: same discipline as
the service's (a `Set` keeps first-insertion order, so adding an article id
is append-if-absent); the stem is computed from the token at insertion. -/
def updateEntryW (aid : Str) (w : Str) : List WordEntry → List WordEntry
  | [] => [⟨w, 1, [aid], stemWord w⟩]
  | e :: rest =>
    if e.word = w then
      { e with
        frequency := e.frequency + 1,
        articles := if e.articles.contains aid then e.articles
                    else e.articles ++ [aid] } :: rest
    else e :: updateEntryW aid w rest

/-- `FrequencyAnalyzer.analyzeArticles`: batch-process the articles, build
the frequency map, convert to `WordEntry` records and sort descending by
frequency (stable). -/
def analyzeArticlesW (articles : List Doc) : List WordEntry :=
  stableSortDescBy (fun e => e.frequency)
    ((processBatchesW articles).foldl
      (fun m p => p.2.foldl (fun m w => updateEntryW p.1 w m) m)
      [])

/-- `FrequencyAnalyzer.optimizeWordList`: drop entries whose frequency is at
most 1 and that occur in at most one article, then cap the list. -/
def optimizeWordList (words : List WordEntry) (maxWords : Nat) : List WordEntry :=
  (words.filter fun w => decide (w.frequency > 1) || decide (w.articles.length > 1)).take maxWords

/-- The worker's `analyze_articles` message handler: analyze, then optimize
with the default cap of 1000. -/
def workerPipeline (articles : List Doc) : List WordEntry :=
  optimizeWordList (analyzeArticlesW articles) 1000

/-- Sum of the frequencies of a word list, the quantity of the conservation
property. -/
def sumFreq (l : List WordEntry) : Nat :=
  (l.map (fun e => e.frequency)).sum

/-! ### Search (`WordFrequencyService`) -/

/-- The two search modes. -/
inductive SMode where
  | intelligent
  | exact
deriving DecidableEq

/-- Wildcard pattern segments: the source builds
`new RegExp(term.replace(/\*/g, '.*'), 'i')`, so a `*` becomes "any run of
characters", a `.` already present in the term is the regex "any one
character", and every other character is a literal.  (Terms containing
other regex metacharacters are outside this model.) -/
inductive Seg where
  | lit (c : Char)
  | anyOne
  | anyRun
deriving DecidableEq

/-- Compile a wildcard term to its pattern. -/
def compileWildcard (term : Str) : List Seg :=
  term.map fun c => if c = '*' then Seg.anyRun else if c = '.' then Seg.anyOne else Seg.lit c

/-- Anchored-at-position match of a pattern against a string suffix
(case-insensitive). -/
def matchSegsHere : List Seg → Str → Bool
  | [], _ => true
  | Seg.lit _ :: _, [] => false
  | Seg.lit c :: ps, x :: xs => ciEq c x && matchSegsHere ps xs
  | Seg.anyOne :: _, [] => false
  | Seg.anyOne :: ps, _ :: xs => matchSegsHere ps xs
  | Seg.anyRun :: ps, s =>
    matchSegsHere ps s ||
      (match s with
       | [] => false
       | _ :: xs => matchSegsHere (Seg.anyRun :: ps) xs)
termination_by p s => (p.length, s.length)

/-- Unanchored `RegExp.prototype.test` (without the `g` flag): the pattern
may match starting at any position. -/
def regexTestCI (p : List Seg) : Str → Bool
  | [] => matchSegsHere p []
  | c :: xs => matchSegsHere p (c :: xs) || regexTestCI p xs

/-- `WordFrequencyService.findWordMatches`: wildcard terms filter by the
compiled pattern's unanchored test; otherwise exact mode compares words
literally (lowercased term) and intelligent mode also accepts stem equality
and substring containment. -/
def findWordMatches (term : Str) (words : List WordEntry) (mode : SMode) : List WordEntry :=
  if term.contains '*' then
    words.filter fun e => regexTestCI (compileWildcard term) e.word
  else
    match mode with
    | SMode.exact => words.filter fun e => e.word = listToLower term
    | SMode.intelligent =>
      words.filter fun e =>
        e.word = listToLower term ||
        e.stemmed = stemWord (listToLower term) ||
        containsSubB (listToLower term) e.word

/-- The `filters` object of a search. -/
structure Filters where
  minLength : Nat
  excludeCommon : Bool
  partOfSpeech : List Str
  articles : List Str
deriving DecidableEq

/-- A search request (`SearchOptions`). -/
structure SearchOptions where
  query : Str
  mode : SMode
  filters : Filters
deriving DecidableEq

/-- `WordFrequencyService.applyFilters`: minimum length, stopword exclusion,
then the article-scope predicates (`recent`, `popular`, `bookmarked`; any
other scope name accepts everything).  The `partOfSpeech` filter field is
carried but never consulted, as in the source. -/
def applyFilters (words : List WordEntry) (f : Filters) : List WordEntry :=
  let w1 := if f.minLength > 1 then words.filter fun w => decide (w.word.length ≥ f.minLength)
            else words
  let w2 := if f.excludeCommon then w1.filter fun w => !stopWordsCommon.contains w.word
            else w1
  if f.articles.length > 0 then
    w2.filter fun w =>
      f.articles.any fun flt =>
        if flt = "recent".data then
          w.articles.any fun aid => ["1".data, "2".data, "3".data].contains aid
        else if flt = "popular".data then decide (w.frequency > 2)
        else if flt = "bookmarked".data then
          w.articles.any fun aid => ["1".data, "4".data].contains aid
        else true
  else w2

/-- Scanner for the phrase regex `/"([^"]+)"/g`: left-to-right, a quote
opens a candidate, a closing quote after at least one inner character emits
the phrase, `""` re-opens at the second quote, an unclosed candidate is
discarded. -/
def phraseScanAux : Str → Option Str → List Str
  | [], _ => []
  | c :: rest, none =>
    if c = '"' then phraseScanAux rest (some []) else phraseScanAux rest none
  | c :: rest, some acc =>
    if c = '"' then
      if acc.isEmpty then phraseScanAux rest (some [])
      else acc.reverse :: phraseScanAux rest none
    else phraseScanAux rest (some (c :: acc))

/-- All phrase matches of a query (`query.match(/"([^"]+)"/g)`, already
stripped of their quotes as by `phrase.slice(1, -1)`). -/
def phraseScan (q : Str) : List Str :=
  phraseScanAux q none

/-- `WordFrequencyService.parseSearchQuery`: quoted phrases win, then a
wildcard query stays whole, otherwise split on whitespace; intelligent mode
adds the stemmed form of each term. -/
def parseSearchQuery (query : Str) (mode : SMode) : List Str :=
  let phrases := phraseScan query
  if phrases.length > 0 then phrases
  else if query.contains '*' then [query]
  else
    let terms := (splitRuns isWs query).filter fun t => t.length > 0
    match mode with
    | SMode.intelligent => (terms.map fun t => [t, stemWord t]).flatten
    | SMode.exact => terms

/-- Case-insensitive anchored comparison of a word against the start of a
string, used by the word-boundary matcher. -/
def ciStartsWith : Str → Str → Bool
  | [], _ => true
  | _ :: _, [] => false
  | a :: as, b :: bs => ciEq a b && ciStartsWith as bs

/-- Match of `\bWORD\b` at the current position: the word appears here
(case-insensitively), the previous character (if any) is not a word
character, and neither is the character following the match.  (The model
assumes the word itself starts and ends with word characters, true of every
search term the service feeds in.) -/
def boundaryHere (w : Str) (prev : Option Char) (rest : Str) : Bool :=
  ciStartsWith w rest &&
    (match prev with
     | none => true
     | some p => !isWordChar p) &&
    (match rest.drop w.length with
     | [] => true
     | c :: _ => !isWordChar c)

/-- First position (absolute index `idx` onwards) at which `\bWORD\b`
matches. -/
def findBoundary (w : Str) : Option Char → Str → Nat → Option Nat
  | prev, rest, idx =>
    if boundaryHere w prev rest then some idx
    else
      match rest with
      | [] => none
      | c :: rs => findBoundary w (some c) rs (idx + 1)

/-- `RegExp.prototype.test` for the global sticky regex
`new RegExp('\\b' + word + '\\b', 'gi')`: search starts at `lastIndex`; when
`lastIndex` exceeds the string length the test fails and resets `lastIndex`
to 0; a successful match advances `lastIndex` past the match; a failed
search resets it to 0.  This statefulness persists across calls on
different strings because the regex object is shared. -/
def testGlobalBoundary (word : Str) (lastIndex : Nat) (str : Str) : Bool × Nat :=
  if lastIndex > str.length then (false, 0)
  else
    let pre := str.take lastIndex
    let rest := str.drop lastIndex
    match findBoundary word pre.getLast? rest lastIndex with
    | some j => (true, j + word.length)
    | none => (false, 0)

/-- `WordFrequencyService.extractContexts`: split the content on sentence
punctuation, test each sentence with the shared global regex (threading its
`lastIndex`!), collect the trimmed hits, keep at most 3. -/
def extractContexts (content word : Str) : List Str :=
  let sentences := splitRuns isSentDelim content
  ((sentences.foldl
      (fun acc sentence =>
        let t := testGlobalBoundary word acc.2 sentence
        (if t.1 then acc.1 ++ [trimL sentence] else acc.1, t.2))
      (([] : List Str), 0)).1).take 3

/-- One per-article match record (`ArticleMatch`; the source field `matches`
is a reserved word in Lean and is named `matchesN` here). -/
structure ArticleMatch where
  articleId : Str
  title : Str
  matchesN : Nat
  contexts : List Str
deriving DecidableEq

/-- A search result (`SearchResult`). -/
structure SearchResult where
  word : Str
  frequency : Nat
  articles : List ArticleMatch
  contexts : List Str
deriving DecidableEq

/-- The iteration order of the `articleIds` `Set` in `buildSearchResult`:
article ids in first-seen order over the matches. -/
def collectArticleIds (ms : List WordEntry) : List Str :=
  ms.foldl
    (fun acc m =>
      m.articles.foldl (fun acc aid => if acc.contains aid then acc else acc ++ [aid]) acc)
    []

/-- `WordFrequencyService.buildSearchResult`: total frequency over the
matches, one `ArticleMatch` per known article id (ids absent from the corpus
are skipped), contexts flattened and capped at 10. -/
def buildSearchResult (corpus : List Doc) (term : Str) (ms : List WordEntry) :
    SearchResult :=
  let totalFrequency := (ms.map (fun m => m.frequency)).sum
  let articleMatches := (collectArticleIds ms).filterMap fun aid =>
    match corpus.find? (fun a => a.id = aid) with
    | none => none
    | some article =>
      some ⟨aid, article.title,
        ((ms.filter fun m => m.articles.contains aid).map (fun m => m.frequency)).sum,
        extractContexts article.content term⟩
  ⟨term, totalFrequency, articleMatches,
    ((articleMatches.map fun am => am.contexts).flatten).take 10⟩

/-- `WordFrequencyService.searchWords` over a given corpus (the source reads
its corpus from the module-level article table; the synchronous aggregation
path `processArticles` supplies the word list, as in the no-worker
fallback): reject whitespace-only queries, parse the query, and for each
term collect matches, filter them, and build a result when any survive;
sort the results descending by aggregated frequency. -/
def searchWords (corpus : List Doc) (opts : SearchOptions) :
    Except Str (List SearchResult) :=
  if (trimL opts.query).isEmpty then Except.error ("Search query is required".data)
  else
    let allWords := processArticles corpus
    let terms := parseSearchQuery opts.query opts.mode
    let results := terms.foldl
      (fun acc term =>
        let ms := findWordMatches term allWords opts.mode
        let filtered := applyFilters ms opts.filters
        if filtered.length > 0 then acc ++ [buildSearchResult corpus term filtered]
        else acc)
      []
    Except.ok (stableSortDescBy (fun r => r.frequency) results)

/-! ### Cache discipline of `analyzeAllArticles` -/

/-- `WordFrequencyService.analyzeAllArticles` as a state transformer on the
single-slot word cache (the method uses the one key `'all_articles'`).  The
computation of the word list — worker round-trip or synchronous fallback —
is abstracted as its outcome `compute`; on a cache hit it is not run, on
success its value is cached and returned, and on failure the `catch` block
re-throws a domain-level error without touching the cache. -/
def analyzeAllArticles (cache : Option (List WordEntry))
    (compute : Except Str (List WordEntry)) :
    Option (List WordEntry) × Except Str (List WordEntry) :=
  match cache with
  | some ws => (some ws, Except.ok ws)
  | none =>
    match compute with
    | Except.ok ws => (some ws, Except.ok ws)
    | Except.error _ => (none, Except.error ("Failed to analyze word frequency".data))

/-! ### Concrete inputs used by the scenario evaluations -/

/-- The Scenario A corpus: one document whose content is the two-sentence
fox/dog text. -/
def scenarioCorpus : List Doc :=
  [⟨"1".data, "Scenario A".data,
    "The quick brown fox jumps over the lazy dog. The dog barks.".data⟩]

/-- Filters that let everything through (minimum length 1, no stopword
exclusion, no scopes). -/
def noFilters : Filters :=
  ⟨1, false, [], []⟩

/-- Number of sentences of a content string that contain the word under a
fresh (stateless) word-boundary test — the per-sentence semantics the
surrounding code and the specification expect of `extractContexts`. -/
def sentencesContaining (word content : Str) : Nat :=
  ((splitRuns isSentDelim content).filter
    fun sentence => (findBoundary word none sentence 0).isSome).length

/-- A two-document-free counterexample corpus for the aggregation paths: a
single article whose two tokens each occur once. -/
def rareCorpus : List Doc :=
  [⟨"1".data, "t".data, "quick fox".data⟩]

/-- Corpus exercising the irregular verb "went" through the aggregation
pipeline. -/
def wentCorpus : List Doc :=
  [⟨"1".data, "t".data, "they went home".data⟩]

/-- CacheWF: every entry of the tokenizer cache was produced by a
default-option call, i.e. is the pure extraction of some text stored under
that text's key.  All reachable caches of the service's aggregation path
satisfy this (the service always calls with default options). -/
def CacheWF (cache : TACache) : Prop :=
  ∀ p ∈ cache, ∃ t : Str, p.1 = cacheKeyM t false 1 ∧ p.2 = extractWordsPure t false 1

/-- A 100-character text prefix used to exhibit a collision of the truncated
tokenizer cache key. -/
def hundredXs : Str :=
  List.replicate 100 'x'

/-! ## Lemmas -/

lemma insertDescBy_perm {α : Type} (key : α → Nat) (e : α) :
    ∀ l : List α, List.Perm (insertDescBy key e l) (e :: l) := by
  intro l
  induction l with
  | nil => exact List.Perm.refl _
  | cons x xs ih =>
    simp only [insertDescBy]
    split
    · exact List.Perm.trans (List.Perm.cons x ih) (List.Perm.swap e x xs)
    · exact List.Perm.refl _

lemma stableSortDescBy_perm {α : Type} (key : α → Nat) :
    ∀ l : List α, List.Perm (stableSortDescBy key l) l := by
  intro l
  induction l with
  | nil => exact List.Perm.refl _
  | cons x xs ih =>
    exact List.Perm.trans (insertDescBy_perm key x (stableSortDescBy key xs))
      (List.Perm.cons x ih)

lemma sumFreq_perm {l l' : List WordEntry} (h : List.Perm l l') :
    sumFreq l = sumFreq l' :=
  List.Perm.sum_eq (List.Perm.map _ h)

lemma sumFreq_cons (e : WordEntry) (l : List WordEntry) :
    sumFreq (e :: l) = e.frequency + sumFreq l := by
  simp [sumFreq]

lemma sumFreq_updateEntry (aid w : Str) :
    ∀ m : List WordEntry, sumFreq (updateEntry aid w m) = sumFreq m + 1 := by
  intro m
  induction m with
  | nil => simp [updateEntry, sumFreq]
  | cons e rest ih =>
    simp only [updateEntry]
    split
    · simp [sumFreq_cons]; omega
    · rw [sumFreq_cons, sumFreq_cons, ih]; omega

lemma updateEntryW_eq (aid w : Str) :
    ∀ m : List WordEntry, updateEntryW aid w m = updateEntry aid w m := by
  intro m
  induction m with
  | nil => rfl
  | cons e rest ih =>
    by_cases h : e.word = w <;> simp [updateEntryW, updateEntry, h, ih]

lemma sumFreq_foldl_tokens (aid : Str) :
    ∀ (ts : List Str) (m : List WordEntry),
      sumFreq (ts.foldl (fun m w => updateEntry aid w m) m) = sumFreq m + ts.length := by
  intro ts
  induction ts with
  | nil => intro m; simp
  | cons t ts ih =>
    intro m
    simp only [List.foldl_cons, List.length_cons]
    rw [ih, sumFreq_updateEntry]
    omega

lemma sumFreq_foldl_tokens_lower (aid : Str) (ts : List Str) (m : List WordEntry) :
    sumFreq (ts.foldl (fun m w => updateEntry aid (listToLower w) m) m) =
      sumFreq m + ts.length := by
  have h := List.foldl_map listToLower
    (fun (m : List WordEntry) (w : Str) => updateEntry aid w m) ts m
  rw [← h, sumFreq_foldl_tokens, List.length_map]

lemma sumFreq_foldl_docs_main :
    ∀ (docs : List Doc) (init : List WordEntry),
      sumFreq (docs.foldl
        (fun m a => (extractWordsMain a.content).foldl
          (fun m w => updateEntry a.id (listToLower w) m) m) init) =
        sumFreq init + (docs.map fun d => (extractWordsMain d.content).length).sum := by
  intro docs
  induction docs with
  | nil => intro init; simp
  | cons d ds ih =>
    intro init
    simp only [List.foldl_cons, List.map_cons, List.sum_cons]
    rw [ih, sumFreq_foldl_tokens_lower]
    omega

lemma processBatchesW_map_aux :
    ∀ (n : Nat) (articles : List Doc), articles.length ≤ n →
      processBatchesW articles = articles.map processArticleW := by
  intro n
  induction n with
  | zero =>
    intro articles h
    have he : articles = [] := List.length_eq_zero.mp (Nat.le_zero.mp h)
    subst he
    rw [processBatchesW]
    simp
  | succ n ih =>
    intro articles h
    rw [processBatchesW]
    split
    · next he => subst he; simp
    · next he =>
      rw [ih (articles.drop 10) ?_]
      · rw [← List.map_append, List.take_append_drop]
      · have hz : articles.length ≠ 0 := fun hz => he (List.length_eq_zero.mp hz)
        simp only [List.length_drop]
        omega

lemma processBatchesW_map (articles : List Doc) :
    processBatchesW articles = articles.map processArticleW :=
  processBatchesW_map_aux articles.length articles (Nat.le_refl _)

lemma sumFreq_foldl_docs_worker :
    ∀ (docs : List Doc) (init : List WordEntry),
      sumFreq (docs.foldl
        (fun m a => (extractWordsW a.content).foldl
          (fun m w => updateEntry a.id w m) m) init) =
        sumFreq init + (docs.map fun d => (extractWordsW d.content).length).sum := by
  intro docs
  induction docs with
  | nil => intro init; simp
  | cons d ds ih =>
    intro init
    simp only [List.foldl_cons, List.map_cons, List.sum_cons]
    rw [ih, sumFreq_foldl_tokens]
    omega

lemma sumFreq_filter_le (p : WordEntry → Bool) :
    ∀ l : List WordEntry, sumFreq (l.filter p) ≤ sumFreq l := by
  intro l
  induction l with
  | nil => simp
  | cons e rest ih =>
    by_cases h : p e
    · simp only [List.filter_cons, h, if_pos]
      rw [sumFreq_cons, sumFreq_cons]
      omega
    · simp only [List.filter_cons, h]
      rw [sumFreq_cons]
      simp only [Bool.false_eq_true, if_false]
      omega

lemma sumFreq_take_le : ∀ (n : Nat) (l : List WordEntry), sumFreq (l.take n) ≤ sumFreq l := by
  intro n
  induction n with
  | zero => intro l; simp [sumFreq]
  | succ n ih =>
    intro l
    cases l with
    | nil => simp
    | cons e rest =>
      simp only [List.take_succ_cons]
      rw [sumFreq_cons, sumFreq_cons]
      have := ih rest
      omega

lemma foldl_docs_worker_eq_main :
    ∀ (docs : List Doc) (init : List WordEntry),
      (∀ d ∈ docs, extractWordsW d.content = (extractWordsMain d.content).map listToLower) →
      docs.foldl
        (fun m a => (extractWordsW a.content).foldl
          (fun m w => updateEntry a.id w m) m) init =
      docs.foldl
        (fun m a => (extractWordsMain a.content).foldl
          (fun m w => updateEntry a.id (listToLower w) m) m) init := by
  intro docs
  induction docs with
  | nil => intro init _; rfl
  | cons d ds ih =>
    intro init h
    simp only [List.foldl_cons]
    rw [h d (List.mem_cons_self d ds), List.foldl_map,
      ih _ (fun d' hd' => h d' (List.mem_cons_of_mem d hd'))]

lemma matchSegsHere_anyRun_true : ∀ s : Str, matchSegsHere [Seg.anyRun] s = true := by
  intro s
  cases s <;> simp [matchSegsHere]

lemma regexTestCI_litStar (c : Char) :
    ∀ w : Str, regexTestCI [Seg.lit c, Seg.anyRun] w = w.any (fun x => ciEq c x) := by
  intro w
  induction w with
  | nil => simp [regexTestCI, matchSegsHere]
  | cons x xs ih =>
    simp only [regexTestCI, List.any_cons]
    rw [ih]
    simp [matchSegsHere, matchSegsHere_anyRun_true]

/-! ## Claims -/

/-- C4: the stemmer maps the classic reference vectors as specified:
`stemWord "caresses" = "caress"`, `stemWord "ponies" = "poni"`,
`stemWord "ties" = "ti"`, `stemWord "agreed" = "agre"`. -/
theorem claim4_stemmer_vectors :
    stemWord ("caresses".data) = ("caress".data) ∧
    stemWord ("ponies".data) = ("poni".data) ∧
    stemWord ("ties".data) = ("ti".data) ∧
    stemWord ("agreed".data) = ("agre".data) := by
  decide

/-- C6: for every search term without a wildcard marker and every word list,
each entry matched in exact mode is also matched in intelligent mode. -/
theorem claim6_exact_subset_intelligent (term : Str) (words : List WordEntry)
    (h : term.contains '*' = false) :
    ∀ e ∈ findWordMatches term words SMode.exact,
      e ∈ findWordMatches term words SMode.intelligent := by
  intro e he
  simp only [findWordMatches, h, Bool.false_eq_true, if_false] at he ⊢
  rw [List.mem_filter] at he ⊢
  refine ⟨he.1, ?_⟩
  have hw := he.2
  simp only [decide_eq_true_eq] at hw
  simp [hw]

/-- C6 witness: the subset relation instantiated on a concrete term and word
list. -/
theorem claim6_witness :
    (("dog".data).contains '*' = false) ∧
    (∀ e ∈ findWordMatches ("dog".data)
        [⟨"dog".data, 2, ["1".data], "dog".data⟩] SMode.exact,
      e ∈ findWordMatches ("dog".data)
        [⟨"dog".data, 2, ["1".data], "dog".data⟩] SMode.intelligent) :=
  ⟨by decide,
   claim6_exact_subset_intelligent ("dog".data)
     [⟨"dog".data, 2, ["1".data], "dog".data⟩] (by decide)⟩

/-- C8: if `analyzeAllArticles` fails, the word cache is exactly what it was
before the call (the cache is written only after a successful computation). -/
theorem claim8_failed_run_preserves_cache (cache : Option (List WordEntry))
    (compute : Except Str (List WordEntry)) (e : Str)
    (h : (analyzeAllArticles cache compute).2 = Except.error e) :
    (analyzeAllArticles cache compute).1 = cache := by
  cases cache with
  | some ws => simp [analyzeAllArticles] at h
  | none =>
    cases compute with
    | ok ws => simp [analyzeAllArticles] at h
    | error msg => simp [analyzeAllArticles]

/-- C8 witness: a failing computation on an empty cache leaves the cache
empty and surfaces the domain-level error. -/
theorem claim8_witness :
    (analyzeAllArticles none (Except.error ("boom".data))).2 =
      Except.error ("Failed to analyze word frequency".data) ∧
    (analyzeAllArticles none (Except.error ("boom".data))).1 = none :=
  ⟨rfl, claim8_failed_run_preserves_cache none (Except.error ("boom".data))
    ("Failed to analyze word frequency".data) rfl⟩

/-- C9: a wildcard term is matched unanchored: `findWordMatches` on the term
`a*` (compiled to the case-insensitive regex `a.*`) keeps, in either mode,
exactly the entries whose word contains the letter `a` anywhere. -/
theorem claim9_wildcard_unanchored :
    ∀ (words : List WordEntry) (mode : SMode),
      findWordMatches ("a*".data) words mode =
        words.filter (fun e => e.word.any (fun x => ciEq 'a' x)) := by
  intro words mode
  have hc : ("a*".data).contains '*' = true := by decide
  simp only [findWordMatches, hc, if_true]
  apply List.filter_congr
  intro e _
  have hp : compileWildcard ("a*".data) = [Seg.lit 'a', Seg.anyRun] := by decide
  rw [hp, regexTestCI_litStar]

/-- C2 counterexample: on the one-document corpus `"quick fox"` (fresh
tokenizer cache, as on the first run of the singleton) the implemented
synchronous path returns both words while the worker pipeline (whose
optimize pass drops frequency-1 single-article entries) returns nothing. -/
theorem claim2_counterexample :
    (processArticlesSt [] rareCorpus).1 ≠ workerPipeline rareCorpus := by
  simp only [workerPipeline, analyzeArticlesW, processBatchesW_map]
  decide

/-- C3 counterexample: on the `"quick fox"` corpus the engine-returned
entries of the worker pipeline sum to 0 while the corpus has 2 valid
non-stopword tokens. -/
theorem claim3_counterexample :
    ¬ (sumFreq (workerPipeline rareCorpus) =
        (rareCorpus.map fun d => (extractWordsW d.content).length).sum) := by
  simp only [workerPipeline, analyzeArticlesW, processBatchesW_map]
  decide

/-- C7 counterexample: the aggregation pipeline records `stemWord "went" =
"went"` as the stemmed field, not the irregular-verb base `"go"`, even
though the table maps `went` to `go`. -/
theorem claim7_counterexample :
    (processArticles wentCorpus).head? =
      some ⟨"went".data, 1, ["1".data], "went".data⟩ ∧
    lookupA ("went".data) IRREGULAR_VERBS = some ("go".data) ∧
    ("went".data : Str) ≠ ("go".data) := by
  decide

/-- C7 (amended): `enhancedStem` does consult the irregular-verb table
before the algorithm and maps every key of the table to its base form; the
aggregation pipeline, however, uses plain `stemWord`, so the `stemmed`
field of a `WordEntry` for an irregular form is the Porter result. -/
theorem claim7_enhanced_stem_table :
    ∀ p ∈ IRREGULAR_VERBS, enhancedStem p.1 = p.2 := by
  decide

/-- C7 witness: the table maps `went` to `go` and `enhancedStem` returns it. -/
theorem claim7_witness :
    (("went".data, "go".data) ∈ IRREGULAR_VERBS) ∧
    enhancedStem ("went".data) = ("go".data) :=
  ⟨by decide, claim7_enhanced_stem_table ("went".data, "go".data) (by decide)⟩

/-- C1: evaluating the exact-mode search for `dog` on the Scenario A corpus.
The query yields exactly one `SearchResult` with aggregated frequency 2, but
its contexts list holds only ONE sentence although TWO sentences of the
document contain `dog`: the shared global regex of `extractContexts` keeps
its `lastIndex` from the first sentence's match, which exceeds the second
sentence's length and makes its test fail. -/
theorem claim1_scenario_b_eval :
    searchWords scenarioCorpus ⟨"dog".data, SMode.exact, noFilters⟩ =
      Except.ok [⟨"dog".data, 2,
        [⟨"1".data, "Scenario A".data, 2,
          ["The quick brown fox jumps over the lazy dog".data]⟩],
        ["The quick brown fox jumps over the lazy dog".data]⟩] ∧
    sentencesContaining ("dog".data)
        ("The quick brown fox jumps over the lazy dog. The dog barks.".data) = 2 := by
  exact ⟨by decide, by decide⟩

/-- C5 counterexample: two distinct texts sharing their first 100 characters
collide in the tokenizer cache; after processing the `cat` text, a call on
the `dog` text returns the `cat` tokens instead of its own. -/
theorem claim5_counterexample :
    (extractWordsCached
        ((extractWordsCached [] (hundredXs ++ (" cat".data)) false 1).2)
        (hundredXs ++ (" dog".data)) false 1).1 ≠
      (extractWordsCached [] (hundredXs ++ (" dog".data)) false 1).1 := by
  decide

end WF

namespace WF

lemma lookupS_some_mem (k : Str) :
    ∀ (c : TACache) (v : List Str), lookupS k c = some v → (k, v) ∈ c := by
  intro c
  induction c with
  | nil => intro v h; simp [lookupS] at h
  | cons p rest ih =>
    intro v h
    obtain ⟨k', v'⟩ := p
    simp only [lookupS] at h
    split at h
    · next heq =>
      cases h
      subst heq
      exact List.mem_cons_self _ _
    · exact List.mem_cons_of_mem _ (ih v h)

lemma take_100_eq_self {l : Str} (h : l.length < 100) : l.take 100 = l :=
  List.take_of_length_le (Nat.le_of_lt h)

lemma cacheKeyM_inj_short {t text : Str} (h : cacheKeyM t false 1 = cacheKeyM text false 1)
    (hlen : text.length < 100) : t = text := by
  unfold cacheKeyM at h
  have h1 := List.append_cancel_left h
  have h2 := List.append_cancel_right h1
  rw [take_100_eq_self hlen] at h2
  have ht : t.length < 100 := by
    by_contra hge
    have : (t.take 100).length = 100 := by
      rw [List.length_take]
      omega
    rw [h2] at this
    omega
  rw [take_100_eq_self ht] at h2
  exact h2

lemma extractWordsCached_short (cache : TACache) (text : Str)
    (hwf : CacheWF cache) (hlen : text.length < 100) :
    (extractWordsCached cache text false 1).1 = extractWordsPure text false 1 := by
  unfold extractWordsCached
  cases hl : lookupS (cacheKeyM text false 1) cache with
  | none => simp [hl]
  | some v =>
    simp only [hl]
    obtain ⟨t, hk, hv⟩ := hwf _ (lookupS_some_mem _ cache v hl)
    have ht : t = text := cacheKeyM_inj_short hk.symm hlen
    subst ht
    exact hv.symm ▸ rfl

lemma cacheWF_extend (cache : TACache) (text : Str) (hwf : CacheWF cache) :
    CacheWF (extractWordsCached cache text false 1).2 := by
  unfold CacheWF extractWordsCached
  cases hl : lookupS (cacheKeyM text false 1) cache with
  | some v =>
    simp only [hl]
    exact hwf
  | none =>
    simp only [hl]
    intro p hp
    rcases List.mem_append.mp hp with hmem | hmem
    · exact hwf p hmem
    · have hp' : p = (cacheKeyM text false 1, extractWordsPure text false 1) :=
        List.mem_singleton.mp hmem
      subst hp'
      exact ⟨text, rfl, rfl⟩

lemma processArticlesSt_fold :
    ∀ (docs : List Doc) (cache : TACache) (init : List WordEntry),
      CacheWF cache → (∀ d ∈ docs, d.content.length < 100) →
      (docs.foldl processArticlesStep (init, cache)).1 =
        docs.foldl
          (fun m a => (extractWordsMain a.content).foldl
            (fun m w => updateEntry a.id (listToLower w) m) m) init := by
  intro docs
  induction docs with
  | nil => intro cache init _ _; rfl
  | cons d ds ih =>
    intro cache init hwf hshort
    simp only [List.foldl_cons]
    have h1 : (extractWordsCached cache d.content false 1).1 =
        extractWordsMain d.content := by
      rw [extractWordsCached_short cache d.content hwf (hshort d (List.mem_cons_self d ds))]
      rfl
    have hstep : processArticlesStep (init, cache) d =
        ((extractWordsMain d.content).foldl
            (fun m w => updateEntry d.id (listToLower w) m) init,
          (extractWordsCached cache d.content false 1).2) := by
      simp [processArticlesStep, h1]
    rw [hstep]
    exact ih _ _ (cacheWF_extend cache d.content hwf)
      (fun d' hd' => hshort d' (List.mem_cons_of_mem d hd'))

lemma processArticlesSt_pure (cache : TACache) (docs : List Doc)
    (hwf : CacheWF cache) (hshort : ∀ d ∈ docs, d.content.length < 100) :
    (processArticlesSt cache docs).1 = processArticles docs := by
  unfold processArticlesSt processArticles
  dsimp only
  congr 1
  exact processArticlesSt_fold docs cache [] hwf hshort

/-- The collision-free hypothesis of `processArticlesSt_pure` is necessary:
on a corpus whose two documents share their first 100 characters, the
memoized tokenizer serves the first document's cached tokens for the
second, so the implemented synchronous path diverges from the cache-free
core (here its frequencies sum to 8 although only 6 tokens occur in the
corpus). -/
lemma processArticlesSt_collision :
    (processArticlesSt []
        [⟨"1".data, "t".data, hundredXs ++ (" cat cat cat".data)⟩,
         ⟨"2".data, "t".data, hundredXs ++ (" dog".data)⟩]).1 ≠
      processArticles
        [⟨"1".data, "t".data, hundredXs ++ (" cat cat cat".data)⟩,
         ⟨"2".data, "t".data, hundredXs ++ (" dog".data)⟩] := by
  decide

/-- C5 (amended): the cache-free extraction is a pure function of its
arguments, and the cached `extractWords` is history-independent exactly for
texts shorter than the 100-character key truncation: over any well-formed
cache (one built from default-option calls) such a call always returns the
cache-free extraction, whatever texts were processed before.  For longer
texts the truncated key breaks this, as the counterexample shows. -/
theorem claim5_pure_short_texts (cache : TACache) (text : Str)
    (hwf : CacheWF cache) (hlen : text.length < 100) :
    (extractWordsCached cache text false 1).1 = extractWordsPure text false 1 :=
  extractWordsCached_short cache text hwf hlen

/-- C5 witness: on the empty cache and the short text `cat`, the cached call
returns the pure extraction. -/
theorem claim5_witness :
    CacheWF [] ∧ ("cat".data).length < 100 ∧
    (extractWordsCached [] ("cat".data) false 1).1 =
      extractWordsPure ("cat".data) false 1 :=
  ⟨fun p hp => absurd hp (List.not_mem_nil p), by decide,
   claim5_pure_short_texts [] ("cat".data)
     (fun p hp => absurd hp (List.not_mem_nil p)) (by decide)⟩

/-- C2 (amended): the two aggregation paths are not identical in general,
but their cores agree: whenever every document of the corpus is shorter
than the 100-character cache-key truncation (so the memoized tokenizer
provably serves the pure extraction over any well-formed cache) and the
two tokenizers extract the same lowercased token sequences per document,
the worker's aggregation before its optimize pass coincides with the
implemented synchronous in-process path. -/
theorem claim2_core_agreement (cache : TACache) (docs : List Doc)
    (hwf : CacheWF cache)
    (hshort : ∀ d ∈ docs, d.content.length < 100)
    (h : ∀ d ∈ docs, extractWordsW d.content = (extractWordsMain d.content).map listToLower) :
    analyzeArticlesW docs = (processArticlesSt cache docs).1 := by
  rw [processArticlesSt_pure cache docs hwf hshort]
  unfold analyzeArticlesW processArticles
  rw [processBatchesW_map, List.foldl_map]
  simp only [processArticleW, updateEntryW_eq]
  rw [foldl_docs_worker_eq_main docs [] h]

/-- C2 witness: on the `"quick fox"` corpus (fresh tokenizer cache) the
documents are short, the tokenizers agree, and the two aggregation cores
produce the same entries. -/
theorem claim2_witness :
    CacheWF [] ∧ (∀ d ∈ rareCorpus, d.content.length < 100) ∧
    (∀ d ∈ rareCorpus,
      extractWordsW d.content = (extractWordsMain d.content).map listToLower) ∧
    analyzeArticlesW rareCorpus = (processArticlesSt [] rareCorpus).1 :=
  ⟨fun p hp => absurd hp (List.not_mem_nil p), by decide, by decide,
   claim2_core_agreement [] rareCorpus
     (fun p hp => absurd hp (List.not_mem_nil p)) (by decide) (by decide)⟩

/-- C3 (amended): conservation holds for the implemented synchronous path
on every corpus free of tokenizer-cache collisions — documents shorter than
the 100-character key truncation, over any well-formed cache — where the
summed frequencies equal the main tokenizer's token count; it holds
unconditionally for the worker path before its optimize pass with the
worker tokenizer's token count; and the optimize pass can only lower the
sum. -/
theorem claim3_conservation :
    (∀ (cache : TACache) (docs : List Doc), CacheWF cache →
        (∀ d ∈ docs, d.content.length < 100) →
        sumFreq (processArticlesSt cache docs).1 =
          (docs.map fun d => (extractWordsMain d.content).length).sum) ∧
    (∀ docs : List Doc,
        sumFreq (analyzeArticlesW docs) =
          (docs.map fun d => (extractWordsW d.content).length).sum) ∧
    (∀ (ws : List WordEntry) (n : Nat),
        sumFreq (optimizeWordList ws n) ≤ sumFreq ws) := by
  refine ⟨?_, ?_, ?_⟩
  · intro cache docs hwf hshort
    rw [processArticlesSt_pure cache docs hwf hshort]
    unfold processArticles
    rw [sumFreq_perm (stableSortDescBy_perm _ _), sumFreq_foldl_docs_main]
    simp [sumFreq]
  · intro docs
    unfold analyzeArticlesW
    rw [sumFreq_perm (stableSortDescBy_perm _ _), processBatchesW_map, List.foldl_map]
    simp only [processArticleW, updateEntryW_eq]
    rw [sumFreq_foldl_docs_worker]
    simp [sumFreq]
  · intro ws n
    unfold optimizeWordList
    exact le_trans (sumFreq_take_le n _) (sumFreq_filter_le _ _)

/-- C3 witness: the collision-free conjunct instantiated on the fresh cache
and the `"quick fox"` corpus, whose two tokens sum to frequency 2. -/
theorem claim3_witness :
    CacheWF [] ∧ (∀ d ∈ rareCorpus, d.content.length < 100) ∧
    sumFreq (processArticlesSt [] rareCorpus).1 =
      (rareCorpus.map fun d => (extractWordsMain d.content).length).sum :=
  ⟨fun p hp => absurd hp (List.not_mem_nil p), by decide,
   claim3_conservation.1 [] rareCorpus
     (fun p hp => absurd hp (List.not_mem_nil p)) (by decide)⟩

lemma charToNat_ofNat {n : Nat} (h : n < 55296) : (Char.ofNat n).toNat = n := by
  unfold Char.ofNat
  rw [dif_pos (Or.inl h)]
  rfl

lemma isUpperA_toLowerA (c : Char) : isUpperA (toLowerA c) = false := by
  unfold toLowerA
  split
  · next h =>
    have hv : c.toNat + 32 < 55296 := by omega
    simp only [isUpperA, charToNat_ofNat hv]
    rw [decide_eq_false_iff_not]
    omega
  · next h =>
    simp only [isUpperA]
    rw [decide_eq_false_iff_not]
    exact h

lemma hasUpperA_listToLower (w : Str) : hasUpperA (listToLower w) = false := by
  unfold hasUpperA listToLower
  rw [List.any_map]
  simp [Function.comp, isUpperA_toLowerA]

lemma hasUpperA_append (a b : Str) :
    hasUpperA (a ++ b) = (hasUpperA a || hasUpperA b) := by
  simp [hasUpperA]

lemma hasUpperA_take (n : Nat) {l : Str} (h : hasUpperA l = false) :
    hasUpperA (l.take n) = false := by
  unfold hasUpperA at h ⊢
  rw [List.any_eq_false] at h ⊢
  exact fun c hc => h c (List.mem_of_mem_take hc)

lemma hasUpperA_dropLast1 {l : Str} (h : hasUpperA l = false) :
    hasUpperA (dropLast1 l) = false :=
  hasUpperA_take _ h

lemma hasUpperA_applyRules {w : Str} (h : hasUpperA w = false) :
    ∀ rules : List SRule, (∀ r ∈ rules, hasUpperA r.rep = false) →
      hasUpperA (applyRules w rules) = false := by
  intro rules
  induction rules with
  | nil => intro _; exact h
  | cons r rs ih =>
    intro hr
    unfold applyRules
    split
    · split
      · unfold replaceSuffix
        rw [hasUpperA_append, hasUpperA_take _ h, hr r (List.mem_cons_self r rs)]
        rfl
      · exact ih fun r' h' => hr r' (List.mem_cons_of_mem r h')
    · exact ih fun r' h' => hr r' (List.mem_cons_of_mem r h')

lemma hasUpperA_step1bFix {prev cur : Str} (h : hasUpperA cur = false) :
    hasUpperA (step1bFix prev cur) = false := by
  unfold step1bFix
  split
  · split
    · exact hasUpperA_applyRules h step1bPost (by decide)
    · split
      · exact hasUpperA_dropLast1 h
      · split
        · rw [hasUpperA_append, h]
          rfl
        · exact h
  · exact h

lemma hasUpperA_stem1b {w : Str} (h : hasUpperA w = false) :
    hasUpperA (stem1b w) = false :=
  hasUpperA_step1bFix (hasUpperA_applyRules h step1bRules (by decide))

lemma hasUpperA_applyIfM0 {w : Str} (rules : List SRule)
    (hr : ∀ r ∈ rules, hasUpperA r.rep = false) (h : hasUpperA w = false) :
    hasUpperA (applyIfM0 rules w) = false := by
  unfold applyIfM0
  split
  · exact hasUpperA_applyRules h rules hr
  · exact h

lemma hasUpperA_applyIfM1 {w : Str} (rules : List SRule)
    (hr : ∀ r ∈ rules, hasUpperA r.rep = false) (h : hasUpperA w = false) :
    hasUpperA (applyIfM1 rules w) = false := by
  unfold applyIfM1
  split
  · exact hasUpperA_applyRules h rules hr
  · exact h

lemma hasUpperA_step5a {w : Str} (h : hasUpperA w = false) :
    hasUpperA (step5a w) = false := by
  unfold step5a
  split
  · split
    · exact hasUpperA_dropLast1 h
    · exact h
  · split
    · exact hasUpperA_dropLast1 h
    · exact h

lemma hasUpperA_step5b {w : Str} (h : hasUpperA w = false) :
    hasUpperA (step5b w) = false := by
  unfold step5b
  split
  · exact hasUpperA_dropLast1 h
  · exact h

/-- C10: `stemWord` returns inputs of length at most 2 verbatim (case
preserved), while every longer word is lowercased before the rules run, so
the result never contains an ASCII uppercase letter. -/
theorem claim10_length_guard_and_lowercase :
    (∀ w : Str, w.length ≤ 2 → stemWord w = w) ∧
    (∀ w : Str, 3 ≤ w.length → hasUpperA (stemWord w) = false) := by
  constructor
  · intro w h
    unfold stemWord
    rw [if_pos h]
  · intro w h
    unfold stemWord
    rw [if_neg (by omega)]
    exact hasUpperA_step5b (hasUpperA_step5a
      (hasUpperA_applyIfM1 step4Rules (by decide)
        (hasUpperA_applyIfM0 step3Rules (by decide)
          (hasUpperA_applyIfM0 step2Rules (by decide)
            (hasUpperA_stem1b
              (hasUpperA_applyRules (hasUpperA_listToLower w) step1aRules (by decide)))))))

/-- C10 witness: `stemWord "AB" = "AB"` under the length guard, and the
three-letter input `ABC` stems to an uppercase-free word. -/
theorem claim10_witness :
    (("AB".data).length ≤ 2 ∧ stemWord ("AB".data) = ("AB".data)) ∧
    (3 ≤ ("ABC".data).length ∧ hasUpperA (stemWord ("ABC".data)) = false) :=
  ⟨⟨by decide, claim10_length_guard_and_lowercase.1 ("AB".data) (by decide)⟩,
   ⟨by decide, claim10_length_guard_and_lowercase.2 ("ABC".data) (by decide)⟩⟩

end WF
